import Mathlib

/-!
Verification of the token-metadata program (programs/token-metadata/src/lib.rs).

The program stores one variable-length metadata record per mint inside a
TLV (type-length-value) container held in a program-owned account, and keeps
the account funded at exactly the rent minimum for its current size.

Shallow embedding conventions:
* a 32-byte public key is a natural number below 2 ^ 256 (the unset sentinel
  of OptionalNonZeroPubkey is the all-zero key, i.e. 0);
* Rust strings are modelled by their byte sequences (List Nat); the program
  never inspects string contents beyond equality;
* lamport balances are natural numbers; the u64/isize casts and the wrapping
  arithmetic of the funding-delta computation on the 64-bit host are made
  explicit with mod 2 ^ 64 arithmetic;
* the rent function (Rent minimum_balance) and the host allocator are
  external collaborators; rent is a parameter of the operations;
* fallible steps return Except ProgramError or Option.

The TLV codec and the record type with its field-update method live in the
external spl crates; they are modelled from the spec (sections 3, 4.1, 4.2):
each definition concerned says so in its doc comment.
-/

namespace TokenMeta

/-- Byte sequences: the raw content of buffers, strings and keys. -/
abbrev Bytes := List Nat

/-- Little-endian byte encoding of a natural number on a fixed number of
bytes (used for u32 length prefixes and 32-byte keys). -/
def natToLEBytes : Nat → Nat → Bytes
  | 0, _ => []
  | k + 1, n => n % 256 :: natToLEBytes k (n / 256)

/-- Value of a little-endian byte sequence. -/
def leBytesToNat : Bytes → Nat
  | [] => 0
  | b :: bs => b + 256 * leBytesToNat bs

/-- Read exactly k bytes from a buffer, returning them and the remainder;
fails when the buffer is shorter (truncated input). -/
def readBytes (k : Nat) (b : Bytes) : Option (Bytes × Bytes) :=
  if k ≤ b.length then some (b.take k, b.drop k) else none

/-- Read a little-endian u32. -/
def readU32 (b : Bytes) : Option (Nat × Bytes) :=
  (readBytes 4 b).map (fun x => (leBytesToNat x.1, x.2))

/-- Read a 32-byte key. -/
def readPubkey (b : Bytes) : Option (Nat × Bytes) :=
  (readBytes 32 b).map (fun x => (leBytesToNat x.1, x.2))

/-- The metadata record (spl_token_metadata_interface state TokenMetadata),
in its on-wire field order: update_authority, mint, name, symbol, uri,
additional_metadata. update_authority = none is the unset (all-zero)
sentinel of OptionalNonZeroPubkey. -/
structure TokenMetadata where
  update_authority : Option Nat
  mint : Nat
  name : Bytes
  symbol : Bytes
  uri : Bytes
  additional_metadata : List (Bytes × Bytes)
deriving DecidableEq

/-- The field selector of the token-metadata interface. -/
inductive Field where
  | Name : Field
  | Symbol : Field
  | Uri : Field
  | Key : Bytes → Field
deriving DecidableEq

/-- The token-metadata interface errors used by the program. -/
inductive TokenMetadataError where
  | IncorrectAccount : TokenMetadataError
  | MintHasNoMintAuthority : TokenMetadataError
  | IncorrectMintAuthority : TokenMetadataError
  | IncorrectUpdateAuthority : TokenMetadataError
  | ImmutableMetadata : TokenMetadataError
deriving DecidableEq

/-- The program-level errors reachable in the embedded operations. -/
inductive ProgramError where
  | Custom : TokenMetadataError → ProgramError
  | InvalidArgument : ProgramError
  | InvalidInstructionData : ProgramError
  | InvalidAccountData : ProgramError
  | BorshIoError : ProgramError
  | InsufficientFunds : ProgramError
  | ArithmeticOverflow : ProgramError
deriving DecidableEq

/-- Modelled from the spec (4.2): first-match update of the key/value list.
The loop of TokenMetadata.update in the interface crate scans for the first
pair whose key equals k, replaces its value and stops; otherwise appends. -/
def updateKeyList (k v : Bytes) : List (Bytes × Bytes) → List (Bytes × Bytes)
  | [] => [(k, v)]
  | p :: rest => if p.1 = k then (p.1, v) :: rest else p :: updateKeyList k v rest

/-- Modelled from the spec (4.2): TokenMetadata.update replaces the fixed
field named by the selector, or upserts into additional_metadata. -/
def TokenMetadata.update (tm : TokenMetadata) : Field → Bytes → TokenMetadata
  | Field.Name, v => { tm with name := v }
  | Field.Symbol, v => { tm with symbol := v }
  | Field.Uri, v => { tm with uri := v }
  | Field.Key k, v =>
      { tm with additional_metadata := updateKeyList k v tm.additional_metadata }

/-- The value currently held by a field: the fixed field itself, or the value
of the first matching pair for a user key (none when the key is absent). -/
def currentFieldValue (tm : TokenMetadata) : Field → Option Bytes
  | Field.Name => some tm.name
  | Field.Symbol => some tm.symbol
  | Field.Uri => some tm.uri
  | Field.Key k =>
      (tm.additional_metadata.find? (fun p => decide (p.1 = k))).map (fun p => p.2)

/-- The 32-byte word stored for an optional authority: the key, or the
all-zero sentinel. -/
def optionalPubkeyWord : Option Nat → Nat
  | none => 0
  | some k => k

/-- Modelled from the spec (3): the stored authority as 32 raw bytes, the
sentinel written explicitly. -/
def encodeOptionalPubkey (o : Option Nat) : Bytes :=
  natToLEBytes 32 (optionalPubkeyWord o)

/-- A 32-byte key as raw bytes. -/
def encodePubkey (p : Nat) : Bytes := natToLEBytes 32 p

/-- Modelled from the spec (4.1): length-prefixed string encoding, 4-byte
little-endian length then the raw bytes; serialization fails when the length
does not fit in a u32. -/
def borshString (s : Bytes) : Option Bytes :=
  if s.length < 2 ^ 32 then some (natToLEBytes 4 s.length ++ s) else none

/-- Modelled from the spec (4.1): the key/value pairs, each independently
length-prefixed, concatenated. -/
def borshPairs : List (Bytes × Bytes) → Option Bytes
  | [] => some []
  | p :: rest => do
      let ke ← borshString p.1
      let ve ← borshString p.2
      let re ← borshPairs rest
      some (ke ++ (ve ++ re))

/-- Modelled from the spec (3, 4.1): the variable-length record payload, in
field order: authority word, mint, name, symbol, uri, count-prefixed pairs. -/
def borshTokenMetadata (tm : TokenMetadata) : Option Bytes := do
  let nameE ← borshString tm.name
  let symbolE ← borshString tm.symbol
  let uriE ← borshString tm.uri
  let fieldsE ← borshPairs tm.additional_metadata
  if tm.additional_metadata.length < 2 ^ 32 then
    some (encodeOptionalPubkey tm.update_authority ++
      (encodePubkey tm.mint ++
        (nameE ++ (symbolE ++ (uriE ++
          (natToLEBytes 4 tm.additional_metadata.length ++ fieldsE))))))
  else none

/-- Decode a length-prefixed string. -/
def decodeString (b : Bytes) : Option (Bytes × Bytes) := do
  let (n, b1) ← readU32 b
  readBytes n b1

/-- Decode a given number of length-prefixed key/value pairs. -/
def decodePairs : Nat → Bytes → Option (List (Bytes × Bytes) × Bytes)
  | 0, b => some ([], b)
  | count + 1, b => do
      let (k, b1) ← decodeString b
      let (v, b2) ← decodeString b1
      let (rest, b3) ← decodePairs count b2
      some ((k, v) :: rest, b3)

/-- Decode a record payload; the whole payload must be consumed. -/
def decodeTokenMetadata (b : Bytes) : Option TokenMetadata := do
  let (uaRaw, b1) ← readPubkey b
  let (mintK, b2) ← readPubkey b1
  let (nameV, b3) ← decodeString b2
  let (symbolV, b4) ← decodeString b3
  let (uriV, b5) ← decodeString b4
  let (count, b6) ← readU32 b5
  let (fields, b7) ← decodePairs count b6
  if b7 = [] then
    some { update_authority := if uaRaw = 0 then none else some uaRaw,
           mint := mintK, name := nameV, symbol := symbolV, uri := uriV,
           additional_metadata := fields }
  else none

/-- Modelled from the spec (3, 4.1): the fixed container header. The spec
fixes neither its size nor its content, and the underlying TLV crate stores
entries from offset zero, so the header is modelled as empty. -/
def tlvHeader : Bytes := []

/-- Modelled from the spec (3): the 2-byte type tag of the metadata-record
entry; its concrete value is left open by the spec. -/
def metadataDiscriminator : Bytes := [19, 1]

/-- Bytes of container overhead around the record payload: header plus the
2-byte type tag plus the 4-byte length. -/
def tlvEntryOverhead : Nat := tlvHeader.length + 2 + 4

/-- Modelled from the spec (4.1, 4.3): the container image holding the single
metadata-record entry; fails when the payload length does not fit the 4-byte
length field. -/
def encodeTokenMetadataTlv (tm : TokenMetadata) : Option Bytes := do
  let p ← borshTokenMetadata tm
  if p.length < 2 ^ 32 then
    some (tlvHeader ++ (metadataDiscriminator ++ (natToLEBytes 4 p.length ++ p)))
  else none

/-- The total encoded TLV size of a record (TokenMetadata.tlv_size_of). -/
def tlv_size_of (tm : TokenMetadata) : Option Nat :=
  (borshTokenMetadata tm).map (fun p => tlvEntryOverhead + p.length)

/-- Modelled from the spec (4.1): scan the entries, skipping those whose type
tag is not the metadata tag, and return the payload of the first matching
entry; fails on truncated entries or when none matches. Fuel bounds the scan
by the buffer length. -/
def findFirstEntry : Nat → Bytes → Option Bytes
  | 0, _ => none
  | fuel + 1, b => do
      let (tag, b1) ← readBytes 2 b
      let (len, b2) ← readU32 b1
      let (payload, rest) ← readBytes len b2
      if tag = metadataDiscriminator then some payload else findFirstEntry fuel rest

/-- Modelled from the spec (4.1): unpack the container and decode the first
metadata-record entry (TlvState get_first_variable_len_value). -/
def getFirstVariableLenValue (b : Bytes) : Option TokenMetadata := do
  let payload ← findFirstEntry (b.length + 1) (b.drop tlvHeader.length)
  decodeTokenMetadata payload

instance {e a : Type} [DecidableEq e] [DecidableEq a] : DecidableEq (Except e a) :=
  fun x y =>
    match x, y with
    | Except.error u, Except.error v =>
        if h : u = v then Decidable.isTrue (by rw [h])
        else Decidable.isFalse (by intro hc; cases hc; exact h rfl)
    | Except.error _, Except.ok _ => Decidable.isFalse (by intro hc; cases hc)
    | Except.ok _, Except.error _ => Decidable.isFalse (by intro hc; cases hc)
    | Except.ok u, Except.ok v =>
        if h : u = v then Decidable.isTrue (by rw [h])
        else Decidable.isFalse (by intro hc; cases hc; exact h rfl)

/-- The cast u64 → isize of the 64-bit host: values at or above 2 ^ 63
become negative. -/
def asI64 (n : Nat) : Int :=
  if n % 2 ^ 64 < 2 ^ 63 then (n % 2 ^ 64 : Nat) else (n % 2 ^ 64 : Nat) - 2 ^ 64

/-- Wrap an integer into the signed 64-bit range (two-complement). -/
def wrapI64 (z : Int) : Int := (z + 2 ^ 63) % 2 ^ 64 - 2 ^ 63

/-- The isize abs of the host: the absolute value, wrapped (the minimum
signed value maps to itself). -/
def i64Abs (z : Int) : Int := wrapI64 (z.natAbs : Nat)

/-- The cast isize → u64 of the host. -/
def asU64 (z : Int) : Nat := (z % 2 ^ 64).toNat

/-- Lines 135-136: (required_lamports as isize - current_lamports as isize)
.abs() as u64, with the wrapping cast and subtraction semantics of the
64-bit host made explicit. -/
def lamportDifference (required current : Nat) : Nat :=
  asU64 (i64Abs (wrapI64 (asI64 required - asI64 current)))

/-- Lines 133-160: move lamports so the metadata account reaches the
required rent; returns the new (metadata, payer) balances. A size increase
is paid by the system transfer from the payer (fails when the payer
cannot cover it); a decrease is returned by direct checked balance
adjustment. -/
def rebalanceLamports (required current payer : Nat) :
    Except ProgramError (Nat × Nat) :=
  if required = current then Except.ok (current, payer)
  else if required > current then
    if payer < lamportDifference required current then
      Except.error ProgramError.InsufficientFunds
    else if 2 ^ 64 ≤ current + lamportDifference required current then
      Except.error ProgramError.ArithmeticOverflow
    else
      Except.ok (current + lamportDifference required current,
        payer - lamportDifference required current)
  else
    if current < lamportDifference required current then
      Except.error ProgramError.ArithmeticOverflow
    else if 2 ^ 64 ≤ payer + lamportDifference required current then
      Except.error ProgramError.ArithmeticOverflow
    else
      Except.ok (current - lamportDifference required current,
        payer + lamportDifference required current)

/-- Lines 53-59: OptionalNonZeroPubkey try_from on the optional authority
account key; an absent account normalizes to the unset sentinel, a supplied
all-zero key is rejected with InvalidArgument. -/
def optionalNonZeroPubkeyTryFrom : Option Nat → Except ProgramError (Option Nat)
  | none => Except.ok none
  | some k => if k = 0 then Except.error ProgramError.InvalidArgument
              else Except.ok (some k)

/-- Result of a successful initialize: the record, the container image
written into the fresh account, and the final balances. -/
structure InitializeResult where
  metadata : TokenMetadata
  buffer : Bytes
  metadataLamports : Nat
  payerLamports : Nat
deriving DecidableEq

/-- Result of a successful update_field: the updated record, the rewritten
container image, and the final balances. -/
structure UpdateResult where
  metadata : TokenMetadata
  buffer : Bytes
  metadataLamports : Nat
  payerLamports : Nat
deriving DecidableEq

/-- Lines 51-100: the initialize handler. Normalize the optional authority,
build the fresh record with empty additional_metadata, compute the TLV size
and its rent minimum, create the account of exactly that size funded from
the payer, and write the single-entry container. The derived-address and
signature checks are enforced by the host and are outside the embedding.
The source names this handler initialize. -/
def initializeHandler (rent : Nat → Nat) (nameV symbolV uriV : Bytes)
    (updateAuthorityAccount : Option Nat) (mintK : Nat) (payerLamports : Nat) :
    Except ProgramError InitializeResult :=
  match optionalNonZeroPubkeyTryFrom updateAuthorityAccount with
  | Except.error e => Except.error e
  | Except.ok update_authority =>
    let token_metadata : TokenMetadata :=
      { update_authority := update_authority, mint := mintK,
        name := nameV, symbol := symbolV, uri := uriV, additional_metadata := [] }
    match tlv_size_of token_metadata with
    | none => Except.error ProgramError.BorshIoError
    | some size =>
      let lamports := rent size
      if payerLamports < lamports then Except.error ProgramError.InsufficientFunds
      else
        match encodeTokenMetadataTlv token_metadata with
        | none => Except.error ProgramError.BorshIoError
        | some buffer =>
          Except.ok { metadata := token_metadata, buffer := buffer,
                      metadataLamports := lamports,
                      payerLamports := payerLamports - lamports }

/-- Lines 102-168: the update_field handler. Decode the stored record,
check the update authority (unset authority is immutable; a wrong caller is
rejected), apply the field update, recompute size and rent, rebalance the
funding, and rewrite the container. -/
def update_field (rent : Nat → Nat) (metadataBuffer : Bytes)
    (updateAuthorityKey : Nat) (field : Field) (value : Bytes)
    (metadataLamports payerLamports : Nat) :
    Except ProgramError UpdateResult :=
  match getFirstVariableLenValue metadataBuffer with
  | none => Except.error ProgramError.InvalidAccountData
  | some token_metadata =>
    match token_metadata.update_authority with
    | none => Except.error (ProgramError.Custom TokenMetadataError.ImmutableMetadata)
    | some update_authority =>
      if update_authority ≠ updateAuthorityKey then
        Except.error (ProgramError.Custom TokenMetadataError.IncorrectUpdateAuthority)
      else
        let updated := TokenMetadata.update token_metadata field value
        match tlv_size_of updated with
        | none => Except.error ProgramError.BorshIoError
        | some new_size =>
          let required_lamports := rent new_size
          match rebalanceLamports required_lamports metadataLamports payerLamports with
          | Except.error e => Except.error e
          | Except.ok (newMetadataLamports, newPayerLamports) =>
            match encodeTokenMetadataTlv updated with
            | none => Except.error ProgramError.BorshIoError
            | some newBuffer =>
              Except.ok { metadata := updated, buffer := newBuffer,
                          metadataLamports := newMetadataLamports,
                          payerLamports := newPayerLamports }

/-- The decoded instructions of the token-metadata interface (the payloads
carry the data each variant needs). -/
inductive TokenMetadataInstruction where
  | Initialize : Bytes → Bytes → Bytes → TokenMetadataInstruction
  | UpdateField : Field → Bytes → TokenMetadataInstruction
  | RemoveKey : Bool → Bytes → TokenMetadataInstruction
  | UpdateAuthority : Option Nat → TokenMetadataInstruction
  | Emit : Option Nat → Option Nat → TokenMetadataInstruction
deriving DecidableEq

/-- The accounts visible to the fallback dispatcher, covering what either
handler reads. -/
structure FallbackAccounts where
  updateAuthorityAccount : Option Nat
  mint : Nat
  metadataBuffer : Bytes
  metadataLamports : Nat
  updateAuthoritySigner : Nat
  payerLamports : Nat
deriving DecidableEq

/-- Outcome of a dispatched instruction. -/
inductive FallbackResult where
  | initialized : InitializeResult → FallbackResult
  | updated : UpdateResult → FallbackResult
deriving DecidableEq

/-- Lines 24-49: the fallback dispatcher. Initialize and UpdateField are
forwarded to the handlers; every other decoded interface instruction is
rejected with InvalidInstructionData. -/
def fallback (rent : Nat → Nat) (instruction : TokenMetadataInstruction)
    (accounts : FallbackAccounts) : Except ProgramError FallbackResult :=
  match instruction with
  | TokenMetadataInstruction.Initialize n s u =>
      (initializeHandler rent n s u accounts.updateAuthorityAccount accounts.mint
        accounts.payerLamports).map FallbackResult.initialized
  | TokenMetadataInstruction.UpdateField f v =>
      (update_field rent accounts.metadataBuffer accounts.updateAuthoritySigner f v
        accounts.metadataLamports accounts.payerLamports).map FallbackResult.updated
  | _ => Except.error ProgramError.InvalidInstructionData

/-- Whether the dispatcher has a handler for the instruction. -/
def isDispatchable : TokenMetadataInstruction → Bool
  | TokenMetadataInstruction.Initialize _ _ _ => true
  | TokenMetadataInstruction.UpdateField _ _ => true
  | _ => false

/-- Encoded byte count of the key/value pairs: 4-byte length prefix for key
and value of each pair. -/
def pairsLen (l : List (Bytes × Bytes)) : Nat :=
  (l.map (fun p => 8 + p.1.length + p.2.length)).sum

/-- Encoded byte count of a record payload: two 32-byte keys, three
length-prefixed strings, the 4-byte pair count, then the pairs. -/
def borshLen (tm : TokenMetadata) : Nat :=
  80 + tm.name.length + tm.symbol.length + tm.uri.length +
    pairsLen tm.additional_metadata

/-- Representability of a stored authority: the unset sentinel, or a nonzero
key of 32 bytes. -/
def authorityWF : Option Nat → Prop
  | none => True
  | some k => 0 < k ∧ k < 2 ^ 256

instance : (o : Option Nat) → Decidable (authorityWF o)
  | none => Decidable.isTrue trivial
  | some k => inferInstanceAs (Decidable (0 < k ∧ k < 2 ^ 256))

/-- Representability of a record in the embedding: string and list lengths
fit the 4-byte length fields, keys are 32-byte values, and a set authority
is nonzero (the OptionalNonZeroPubkey invariant). -/
def WellFormed (tm : TokenMetadata) : Prop :=
  tm.name.length < 2 ^ 32 ∧ tm.symbol.length < 2 ^ 32 ∧ tm.uri.length < 2 ^ 32 ∧
  tm.additional_metadata.length < 2 ^ 32 ∧
  (∀ p ∈ tm.additional_metadata, p.1.length < 2 ^ 32 ∧ p.2.length < 2 ^ 32) ∧
  tm.mint < 2 ^ 256 ∧ authorityWF tm.update_authority ∧ borshLen tm < 2 ^ 32

instance (tm : TokenMetadata) : Decidable (WellFormed tm) := by
  unfold WellFormed; infer_instance

/-- Extract the payload of an ok result, with a default for errors (used to
name concrete evaluation results in witnesses). -/
def okOr {α : Type} (d : α) : Except ProgramError α → α
  | Except.ok r => r
  | Except.error _ => d

/-- A mutable concrete record: set authority 1, mint 2, one extra pair. -/
def tmA : TokenMetadata :=
  { update_authority := some 1, mint := 2, name := [97], symbol := [98],
    uri := [99], additional_metadata := [([100], [101])] }

/-- The container image of tmA (99 bytes). -/
def bufA : Bytes := (encodeTokenMetadataTlv tmA).getD []

/-- An immutable concrete record: authority unset. -/
def tmB : TokenMetadata :=
  { update_authority := none, mint := 0, name := [97], symbol := [],
    uri := [], additional_metadata := [] }

/-- The container image of tmB (87 bytes). -/
def bufB : Bytes := (encodeTokenMetadataTlv tmB).getD []

/-- A default result used as the okOr fallback. -/
def dfltUpdate : UpdateResult :=
  { metadata := tmB, buffer := [], metadataLamports := 0, payerLamports := 0 }

/-- A default result used as the okOr fallback. -/
def dfltInit : InitializeResult :=
  { metadata := tmB, buffer := [], metadataLamports := 0, payerLamports := 0 }

/-- The result of a successful same-length Name update on tmA. -/
def resA : UpdateResult :=
  okOr dfltUpdate (update_field (fun n => n) bufA 1 Field.Name [120] 99 0)

/-- The result of a successful growing Key update on tmA. -/
def resU3 : UpdateResult :=
  okOr dfltUpdate (update_field (fun n => n) bufA 1 (Field.Key [102]) [103] 99 50)

/-- The result of a successful create. -/
def resI3 : InitializeResult :=
  okOr dfltInit (initializeHandler (fun n => n) [97] [98] [99] (some 1) 2 1000)

/-- The record created by the concrete create call below. -/
def tmC7 : TokenMetadata :=
  { update_authority := some 1, mint := 2, name := [97], symbol := [98],
    uri := [99], additional_metadata := [] }

/-- A concrete account bundle for the dispatcher. -/
def accW : FallbackAccounts :=
  { updateAuthorityAccount := none, mint := 0, metadataBuffer := [],
    metadataLamports := 0, updateAuthoritySigner := 0, payerLamports := 0 }

theorem pow256_4 : (256 : Nat) ^ 4 = 2 ^ 32 := by norm_num

theorem pow256_32 : (256 : Nat) ^ 32 = 2 ^ 256 := by norm_num

theorem natToLEBytes_length (k n : Nat) : (natToLEBytes k n).length = k := by
  induction k generalizing n with
  | zero => rfl
  | succ k ih => simp [natToLEBytes, ih]

theorem leBytesToNat_natToLEBytes (k n : Nat) (h : n < 256 ^ k) :
    leBytesToNat (natToLEBytes k n) = n := by
  induction k generalizing n with
  | zero =>
      simp [natToLEBytes, leBytesToNat]
      omega
  | succ k ih =>
      have hdiv : n / 256 < 256 ^ k := by
        rw [Nat.div_lt_iff_lt_mul (by norm_num : 0 < 256)]
        calc n < 256 ^ (k + 1) := h
          _ = 256 ^ k * 256 := by ring
      simp [natToLEBytes, leBytesToNat, ih (n / 256) hdiv]
      exact Nat.mod_add_div n 256

theorem readBytes_of_length (k : Nat) (x r : Bytes) (h : x.length = k) :
    readBytes k (x ++ r) = some (x, r) := by
  subst h
  unfold readBytes
  rw [if_pos (by simp)]
  rw [List.take_left, List.drop_left]

theorem readU32_append (n : Nat) (h : n < 2 ^ 32) (r : Bytes) :
    readU32 (natToLEBytes 4 n ++ r) = some (n, r) := by
  unfold readU32
  rw [readBytes_of_length 4 _ r (natToLEBytes_length 4 n)]
  simp [leBytesToNat_natToLEBytes 4 n (by rw [pow256_4]; exact h)]

theorem readPubkey_append (n : Nat) (h : n < 2 ^ 256) (r : Bytes) :
    readPubkey (natToLEBytes 32 n ++ r) = some (n, r) := by
  unfold readPubkey
  rw [readBytes_of_length 32 _ r (natToLEBytes_length 32 n)]
  simp [leBytesToNat_natToLEBytes 32 n (by rw [pow256_32]; exact h)]

theorem decodeString_append (s : Bytes) (h : s.length < 2 ^ 32) (r : Bytes) :
    decodeString ((natToLEBytes 4 s.length ++ s) ++ r) = some (s, r) := by
  rw [List.append_assoc]
  unfold decodeString
  rw [readU32_append s.length h (s ++ r)]
  simp [readBytes_of_length s.length s r rfl]

theorem decodeString_append2 (s : Bytes) (h : s.length < 2 ^ 32) (r : Bytes) :
    decodeString (natToLEBytes 4 s.length ++ (s ++ r)) = some (s, r) := by
  rw [← List.append_assoc]
  exact decodeString_append s h r

theorem borshString_eq (s : Bytes) (h : s.length < 2 ^ 32) :
    borshString s = some (natToLEBytes 4 s.length ++ s) := by
  unfold borshString
  rw [if_pos h]

theorem pairsLen_cons (p : Bytes × Bytes) (l : List (Bytes × Bytes)) :
    pairsLen (p :: l) = 8 + p.1.length + p.2.length + pairsLen l := by
  simp [pairsLen]

theorem borshPairs_spec (l : List (Bytes × Bytes))
    (h : ∀ p ∈ l, p.1.length < 2 ^ 32 ∧ p.2.length < 2 ^ 32) :
    ∃ e, borshPairs l = some e ∧ e.length = pairsLen l ∧
      ∀ r, decodePairs l.length (e ++ r) = some (l, r) := by
  induction l with
  | nil => exact ⟨[], rfl, rfl, fun r => by simp [decodePairs]⟩
  | cons p rest ih =>
      obtain ⟨hk, hv⟩ := h p (List.mem_cons_self p rest)
      obtain ⟨e, he, helen, hdec⟩ := ih (fun q hq => h q (List.mem_cons_of_mem p hq))
      refine ⟨(natToLEBytes 4 p.1.length ++ p.1) ++
        ((natToLEBytes 4 p.2.length ++ p.2) ++ e), ?_, ?_, ?_⟩
      · unfold borshPairs
        rw [borshString_eq p.1 hk, borshString_eq p.2 hv, he]
        rfl
      · simp [List.length_append, natToLEBytes_length, helen, pairsLen_cons]
        omega
      · intro r
        have hlen : (p :: rest).length = rest.length + 1 := rfl
        rw [hlen]
        unfold decodePairs
        rw [List.append_assoc, decodeString_append p.1 hk]
        simp only [Option.bind_eq_bind, Option.some_bind]
        rw [List.append_assoc, decodeString_append p.2 hv]
        simp only [Option.some_bind]
        rw [hdec r]
        rfl

theorem borshTokenMetadata_spec (tm : TokenMetadata) (h : WellFormed tm) :
    ∃ p, borshTokenMetadata tm = some p ∧ p.length = borshLen tm ∧
      decodeTokenMetadata p = some tm := by
  obtain ⟨h1, h2, h3, h4, h5, h6, h7, h8⟩ := h
  obtain ⟨e, he, helen, hdec⟩ := borshPairs_spec tm.additional_metadata h5
  have hcnt : decodePairs tm.additional_metadata.length e =
      some (tm.additional_metadata, []) := by
    have := hdec []
    rwa [List.append_nil] at this
  have huaw : optionalPubkeyWord tm.update_authority < 2 ^ 256 := by
    cases huat : tm.update_authority with
    | none => simp [optionalPubkeyWord]
    | some k =>
        rw [huat] at h7
        simp [authorityWF] at h7
        simpa [optionalPubkeyWord] using h7.2
  refine ⟨encodeOptionalPubkey tm.update_authority ++
    (encodePubkey tm.mint ++
      ((natToLEBytes 4 tm.name.length ++ tm.name) ++
        ((natToLEBytes 4 tm.symbol.length ++ tm.symbol) ++
          ((natToLEBytes 4 tm.uri.length ++ tm.uri) ++
            (natToLEBytes 4 tm.additional_metadata.length ++ e))))), ?_, ?_, ?_⟩
  · unfold borshTokenMetadata
    rw [borshString_eq tm.name h1, borshString_eq tm.symbol h2,
      borshString_eq tm.uri h3, he]
    simp only [Option.bind_eq_bind, Option.some_bind]
    rw [if_pos h4]
  · simp [encodeOptionalPubkey, encodePubkey, natToLEBytes_length, helen, borshLen]
    omega
  · unfold decodeTokenMetadata
    rw [show encodeOptionalPubkey tm.update_authority =
        natToLEBytes 32 (optionalPubkeyWord tm.update_authority) from rfl,
      show encodePubkey tm.mint = natToLEBytes 32 tm.mint from rfl,
      readPubkey_append _ huaw]
    simp only [Option.bind_eq_bind, Option.some_bind]
    rw [readPubkey_append tm.mint h6]
    simp only [Option.some_bind]
    rw [decodeString_append tm.name h1]
    simp only [Option.some_bind]
    rw [decodeString_append tm.symbol h2]
    simp only [Option.some_bind]
    rw [decodeString_append tm.uri h3]
    simp only [Option.some_bind]
    rw [readU32_append tm.additional_metadata.length h4]
    simp only [Option.some_bind]
    rw [hcnt]
    simp only [Option.some_bind, if_pos rfl]
    cases huat : tm.update_authority with
    | none =>
        simp only [optionalPubkeyWord, if_pos rfl]
        rw [← huat]
        simp
    | some k =>
        rw [huat] at h7
        simp only [authorityWF] at h7
        have hk0 : k ≠ 0 := by omega
        simp only [optionalPubkeyWord, if_neg hk0]
        rw [← huat]
        simp

theorem findFirstEntry_single (fuel : Nat) (p : Bytes) (hb : p.length < 2 ^ 32) :
    findFirstEntry (fuel + 1)
      (metadataDiscriminator ++ (natToLEBytes 4 p.length ++ p)) = some p := by
  have hpr : readBytes p.length p = some (p, []) := by
    have := readBytes_of_length p.length p [] rfl
    rwa [List.append_nil] at this
  unfold findFirstEntry
  rw [readBytes_of_length 2 metadataDiscriminator _ rfl]
  simp only [Option.bind_eq_bind, Option.some_bind]
  rw [readU32_append p.length hb p]
  simp only [Option.some_bind]
  rw [hpr]
  simp

theorem tlv_roundtrip (tm : TokenMetadata) (h : WellFormed tm) :
    ∃ b, encodeTokenMetadataTlv tm = some b ∧
      b.length = tlvEntryOverhead + borshLen tm ∧
      getFirstVariableLenValue b = some tm := by
  obtain ⟨p, hp, hplen, hpdec⟩ := borshTokenMetadata_spec tm h
  have hb : p.length < 2 ^ 32 := by rw [hplen]; exact h.2.2.2.2.2.2.2
  refine ⟨tlvHeader ++ (metadataDiscriminator ++ (natToLEBytes 4 p.length ++ p)),
    ?_, ?_, ?_⟩
  · unfold encodeTokenMetadataTlv
    rw [hp]
    simp only [Option.bind_eq_bind, Option.some_bind]
    rw [if_pos hb]
  · simp [tlvHeader, metadataDiscriminator, tlvEntryOverhead, natToLEBytes_length,
      hplen]
    omega
  · unfold getFirstVariableLenValue
    simp only [tlvHeader, List.nil_append, List.length_nil, List.drop_zero]
    rw [findFirstEntry_single _ p hb]
    simp only [Option.bind_eq_bind, Option.some_bind]
    exact hpdec

theorem encodeTlv_length (tm : TokenMetadata) (b : Bytes)
    (hb : encodeTokenMetadataTlv tm = some b) :
    tlv_size_of tm = some b.length := by
  unfold encodeTokenMetadataTlv at hb
  unfold tlv_size_of
  cases hp : borshTokenMetadata tm with
  | none => rw [hp] at hb; cases hb
  | some p =>
      rw [hp] at hb
      simp only [Option.bind_eq_bind, Option.some_bind] at hb
      by_cases hlt : p.length < 2 ^ 32
      · rw [if_pos hlt] at hb
        cases hb
        simp [tlvEntryOverhead, tlvHeader, metadataDiscriminator, natToLEBytes_length]
        omega
      · rw [if_neg hlt] at hb
        cases hb

theorem asI64_small (n : Nat) (h : n < 2 ^ 63) : asI64 n = n := by
  unfold asI64
  rw [Nat.mod_eq_of_lt (by omega), if_pos (by omega)]

theorem wrapI64_small (z : Int) (h1 : -(2 ^ 63) ≤ z) (h2 : z < 2 ^ 63) :
    wrapI64 z = z := by
  unfold wrapI64
  rw [Int.emod_eq_of_lt (by omega) (by omega)]
  omega

theorem lamportDifference_small (required current : Nat)
    (hr : required < 2 ^ 63) (hc : current < 2 ^ 63) :
    lamportDifference required current =
      if current ≤ required then required - current else current - required := by
  unfold lamportDifference
  rw [asI64_small required hr, asI64_small current hc]
  rw [wrapI64_small _ (by omega) (by omega)]
  unfold i64Abs
  rw [wrapI64_small _ (by omega) (by omega)]
  unfold asU64
  rw [Int.emod_eq_of_lt (by omega) (by omega)]
  split <;> omega

theorem rebalanceLamports_exact (required current payer m p : Nat)
    (hr : required < 2 ^ 63) (hc : current < 2 ^ 63)
    (hok : rebalanceLamports required current payer = Except.ok (m, p)) :
    m = required ∧ m + p = current + payer := by
  unfold rebalanceLamports at hok
  rw [lamportDifference_small required current hr hc] at hok
  by_cases hcr : current ≤ required
  · rw [if_pos hcr] at hok
    repeat' split at hok
    all_goals cases hok
    all_goals constructor <;> omega
  · rw [if_neg hcr] at hok
    repeat' split at hok
    all_goals cases hok
    all_goals constructor <;> omega

theorem rebalanceLamports_equal (current payer : Nat) :
    rebalanceLamports current current payer = Except.ok (current, payer) := by
  unfold rebalanceLamports
  rw [if_pos rfl]

theorem rebalanceLamports_error_shape (required current payer : Nat)
    (e : ProgramError)
    (he : rebalanceLamports required current payer = Except.error e) :
    e = ProgramError.InsufficientFunds ∨ e = ProgramError.ArithmeticOverflow := by
  unfold rebalanceLamports at he
  repeat' split at he
  all_goals cases he
  all_goals first | exact Or.inl rfl | exact Or.inr rfl

theorem updateKeyList_self (k : Bytes) (l : List (Bytes × Bytes))
    (q : Bytes × Bytes) (hf : l.find? (fun p => decide (p.1 = k)) = some q) :
    updateKeyList k q.2 l = l := by
  induction l with
  | nil => cases hf
  | cons p rest ih =>
      by_cases hp : p.1 = k
      · rw [List.find?_cons_of_pos _ (by simp [hp])] at hf
        cases hf
        rw [updateKeyList, if_pos hp]
      · rw [List.find?_cons_of_neg _ (by simp [hp])] at hf
        rw [updateKeyList, if_neg hp, ih hf]

theorem update_of_currentFieldValue (tm : TokenMetadata) (f : Field) (v : Bytes)
    (h : currentFieldValue tm f = some v) : TokenMetadata.update tm f v = tm := by
  cases f with
  | Name =>
      simp only [currentFieldValue, Option.some.injEq] at h
      rw [TokenMetadata.update, ← h]
  | Symbol =>
      simp only [currentFieldValue, Option.some.injEq] at h
      rw [TokenMetadata.update, ← h]
  | Uri =>
      simp only [currentFieldValue, Option.some.injEq] at h
      rw [TokenMetadata.update, ← h]
  | Key k =>
      simp only [currentFieldValue, Option.map_eq_some'] at h
      obtain ⟨q, hq, hv⟩ := h
      rw [TokenMetadata.update]
      rw [← hv, updateKeyList_self k tm.additional_metadata q hq]

theorem updateKeyList_append (k v : Bytes) (l : List (Bytes × Bytes))
    (h : ∀ p ∈ l, p.1 ≠ k) : updateKeyList k v l = l ++ [(k, v)] := by
  induction l with
  | nil => rfl
  | cons p rest ih =>
      have hp : p.1 ≠ k := h p (List.mem_cons_self p rest)
      simp [updateKeyList, hp,
        ih (fun q hq => h q (List.mem_cons_of_mem p hq))]

theorem updateKeyList_replace (k v w : Bytes) (pre post : List (Bytes × Bytes))
    (h : ∀ p ∈ pre, p.1 ≠ k) :
    updateKeyList k v (pre ++ (k, w) :: post) = pre ++ (k, v) :: post := by
  induction pre with
  | nil => simp [updateKeyList]
  | cons p rest ih =>
      have hp : p.1 ≠ k := h p (List.mem_cons_self p rest)
      simp [updateKeyList, hp,
        ih (fun q hq => h q (List.mem_cons_of_mem p hq))]

theorem update_field_eq_of_auth (rent : Nat → Nat) (buf : Bytes)
    (f : Field) (v : Bytes) (mL pL : Nat) (R : TokenMetadata) (A : Nat)
    (hdec : getFirstVariableLenValue buf = some R)
    (hua : R.update_authority = some A) :
    update_field rent buf A f v mL pL =
      (match tlv_size_of (TokenMetadata.update R f v) with
       | none => Except.error ProgramError.BorshIoError
       | some new_size =>
         match rebalanceLamports (rent new_size) mL pL with
         | Except.error e => Except.error e
         | Except.ok (a, b) =>
           match encodeTokenMetadataTlv (TokenMetadata.update R f v) with
           | none => Except.error ProgramError.BorshIoError
           | some nb =>
             Except.ok { metadata := TokenMetadata.update R f v, buffer := nb,
                         metadataLamports := a, payerLamports := b }) := by
  simp [update_field, hdec, hua]

theorem update_field_ok_inv (rent : Nat → Nat) (buf : Bytes) (caller : Nat)
    (f : Field) (v : Bytes) (mL pL : Nat) (r : UpdateResult)
    (hok : update_field rent buf caller f v mL pL = Except.ok r) :
    ∃ R, getFirstVariableLenValue buf = some R ∧
      R.update_authority = some caller ∧
      r.metadata = TokenMetadata.update R f v ∧
      encodeTokenMetadataTlv (TokenMetadata.update R f v) = some r.buffer ∧
      rebalanceLamports (rent r.buffer.length) mL pL =
        Except.ok (r.metadataLamports, r.payerLamports) := by
  unfold update_field at hok
  cases hdec : getFirstVariableLenValue buf with
  | none => simp only [hdec] at hok; cases hok
  | some R =>
      simp only [hdec] at hok
      cases hua : R.update_authority with
      | none => simp only [hua] at hok; cases hok
      | some A =>
          simp only [hua] at hok
          by_cases hA : A = caller
          · rw [if_neg (fun hne => hne hA)] at hok
            cases hsz : tlv_size_of (TokenMetadata.update R f v) with
            | none => simp only [hsz] at hok; cases hok
            | some ns =>
                simp only [hsz] at hok
                cases hrb : rebalanceLamports (rent ns) mL pL with
                | error e => simp only [hrb] at hok; cases hok
                | ok q =>
                    obtain ⟨a, b⟩ := q
                    simp only [hrb] at hok
                    cases henc : encodeTokenMetadataTlv (TokenMetadata.update R f v) with
                    | none => simp only [henc] at hok; cases hok
                    | some nb =>
                        simp only [henc] at hok
                        cases hok
                        have hlen : tlv_size_of (TokenMetadata.update R f v) =
                            some nb.length :=
                          encodeTlv_length (TokenMetadata.update R f v) nb henc
                        rw [hsz] at hlen
                        cases hlen
                        exact ⟨R, rfl, hA ▸ hua, rfl, henc, hrb⟩
          · rw [if_pos hA] at hok
            cases hok

theorem initializeHandler_ok_inv (rent : Nat → Nat) (n s u : Bytes)
    (auth : Option Nat) (mintK pL : Nat) (r : InitializeResult)
    (hok : initializeHandler rent n s u auth mintK pL = Except.ok r) :
    optionalNonZeroPubkeyTryFrom auth = Except.ok r.metadata.update_authority ∧
    r.metadata = { update_authority := r.metadata.update_authority, mint := mintK,
                   name := n, symbol := s, uri := u, additional_metadata := [] } ∧
    encodeTokenMetadataTlv r.metadata = some r.buffer ∧
    r.metadataLamports = rent r.buffer.length ∧
    r.metadataLamports ≤ pL ∧
    r.payerLamports = pL - r.metadataLamports := by
  unfold initializeHandler at hok
  cases htf : optionalNonZeroPubkeyTryFrom auth with
  | error e => simp only [htf] at hok; cases hok
  | ok ua =>
      simp only [htf] at hok
      cases hsz : tlv_size_of ({ update_authority := ua, mint := mintK, name := n, symbol := s, uri := u, additional_metadata := [] } : TokenMetadata) with
      | none => simp only [hsz] at hok; cases hok
      | some size =>
          simp only [hsz] at hok
          by_cases hpay : pL < rent size
          · rw [if_pos hpay] at hok; cases hok
          · rw [if_neg hpay] at hok
            cases henc : encodeTokenMetadataTlv ({ update_authority := ua, mint := mintK, name := n, symbol := s, uri := u, additional_metadata := [] } : TokenMetadata) with
            | none => simp only [henc] at hok; cases hok
            | some b =>
                simp only [henc] at hok
                cases hok
                have hlen := encodeTlv_length _ b henc
                rw [hsz] at hlen
                cases hlen
                exact ⟨rfl, rfl, henc, rfl, Nat.le_of_not_lt hpay, rfl⟩

/-- C1: for every stored record whose update authority is the unset
sentinel, update_field fails with ImmutableMetadata, for any caller
identity and any field or value, and no mutated state is produced. -/
theorem c1_unset_authority_immutable (rent : Nat → Nat) (buf : Bytes)
    (caller : Nat) (f : Field) (v : Bytes) (mL pL : Nat) (R : TokenMetadata)
    (hdec : getFirstVariableLenValue buf = some R)
    (hua : R.update_authority = none) :
    update_field rent buf caller f v mL pL =
      Except.error (ProgramError.Custom TokenMetadataError.ImmutableMetadata) := by
  simp [update_field, hdec, hua]

theorem c1_witness :
    update_field (fun _ => 0) bufB 5 Field.Name [98] 0 0 =
      Except.error (ProgramError.Custom TokenMetadataError.ImmutableMetadata) :=
  c1_unset_authority_immutable (fun _ => 0) bufB 5 Field.Name [98] 0 0 tmB
    (by decide) rfl

/-- C2: with a set update authority A, update_field rejects every caller
other than A with IncorrectUpdateAuthority; for the caller A it never fails
with an authority error, and any success carries the record updated at the
requested field. -/
theorem c2_authority_enforcement (rent : Nat → Nat) (buf : Bytes)
    (caller : Nat) (f : Field) (v : Bytes) (mL pL : Nat) (R : TokenMetadata)
    (A : Nat) (hdec : getFirstVariableLenValue buf = some R)
    (hua : R.update_authority = some A) :
    (caller ≠ A →
      update_field rent buf caller f v mL pL =
        Except.error
          (ProgramError.Custom TokenMetadataError.IncorrectUpdateAuthority)) ∧
    (caller = A →
      (∀ e, update_field rent buf caller f v mL pL = Except.error e →
        e ≠ ProgramError.Custom TokenMetadataError.IncorrectUpdateAuthority ∧
        e ≠ ProgramError.Custom TokenMetadataError.ImmutableMetadata) ∧
      (∀ r, update_field rent buf caller f v mL pL = Except.ok r →
        r.metadata = TokenMetadata.update R f v)) := by
  constructor
  · intro hne
    simp only [update_field, hdec, hua]
    rw [if_pos (fun h => hne (Eq.symm h))]
  · intro heq
    subst heq
    constructor
    · intro e he
      rw [update_field_eq_of_auth rent buf f v mL pL R caller hdec hua] at he
      cases hsz : tlv_size_of (TokenMetadata.update R f v) with
      | none =>
          simp only [hsz] at he
          cases he
          exact ⟨(fun h => nomatch h), (fun h => nomatch h)⟩
      | some ns =>
          simp only [hsz] at he
          cases hrb : rebalanceLamports (rent ns) mL pL with
          | error e2 =>
              simp only [hrb] at he
              injection he with h3
              subst h3
              rcases rebalanceLamports_error_shape (rent ns) mL pL e2 hrb with
                h2 | h2 <;> subst h2 <;>
                exact ⟨(fun h => nomatch h), (fun h => nomatch h)⟩
          | ok q =>
              obtain ⟨a, b⟩ := q
              simp only [hrb] at he
              cases henc : encodeTokenMetadataTlv (TokenMetadata.update R f v) with
              | none =>
                  simp only [henc] at he
                  cases he
                  exact ⟨(fun h => nomatch h), (fun h => nomatch h)⟩
              | some nb => simp only [henc] at he; cases he
    · intro r hr
      obtain ⟨R2, hdec2, _, hmeta, _, _⟩ :=
        update_field_ok_inv rent buf caller f v mL pL r hr
      rw [hdec] at hdec2
      cases hdec2
      exact hmeta

theorem c2_witness :
    update_field (fun n => n) bufA 7 Field.Name [120] 99 0 =
      Except.error
        (ProgramError.Custom TokenMetadataError.IncorrectUpdateAuthority) ∧
    resA.metadata = TokenMetadata.update tmA Field.Name [120] :=
  ⟨(c2_authority_enforcement (fun n => n) bufA 7 Field.Name [120] 99 0 tmA 1
      (by decide) rfl).1 (by decide),
   ((c2_authority_enforcement (fun n => n) bufA 1 Field.Name [120] 99 0 tmA 1
      (by decide) rfl).2 rfl).2 resA rfl⟩

/-- C3 counterexample: with the metadata account balance at the u64
maximum and a required minimum of 5, the signed 64-bit difference
computation wraps: the operation succeeds moving only 6 lamports instead
of the true difference, and the final balance is not the required
minimum. -/
theorem c3_counterexample :
    update_field (fun _ => 5) bufA 1 Field.Name [97] (2 ^ 64 - 1) 0 =
      Except.ok { metadata := tmA, buffer := bufA,
                  metadataLamports := 2 ^ 64 - 7, payerLamports := 6 } ∧
    2 ^ 64 - 7 ≠ 5 ∧
    (2 ^ 64 - 1) - (2 ^ 64 - 7) ≠ (2 ^ 64 - 1) - 5 :=
  ⟨by decide, by decide, by decide⟩

/-- C3 (amended): after a successful create the account balance is exactly
the rent minimum of the encoded size; after a successful update whose
current balance and required minimum are both below 2 to the 63 (so the
signed difference computation cannot wrap), the final balance is exactly
the rent minimum of the new encoded size and lamports are conserved
between the account and the payer, i.e. exactly the difference moved. -/
theorem c3_funding_amended :
    (∀ (rent : Nat → Nat) (n s u : Bytes) (auth : Option Nat) (mintK pL : Nat)
        (r : InitializeResult),
      initializeHandler rent n s u auth mintK pL = Except.ok r →
      r.metadataLamports = rent r.buffer.length) ∧
    (∀ (rent : Nat → Nat) (buf : Bytes) (caller : Nat) (f : Field) (v : Bytes)
        (mL pL : Nat) (r : UpdateResult),
      update_field rent buf caller f v mL pL = Except.ok r →
      mL < 2 ^ 63 → rent r.buffer.length < 2 ^ 63 →
      r.metadataLamports = rent r.buffer.length ∧
      r.metadataLamports + r.payerLamports = mL + pL) := by
  constructor
  · intro rent n s u auth mintK pL r hok
    exact (initializeHandler_ok_inv rent n s u auth mintK pL r hok).2.2.2.1
  · intro rent buf caller f v mL pL r hok hmL hreq
    obtain ⟨R, _, _, _, _, hrb⟩ :=
      update_field_ok_inv rent buf caller f v mL pL r hok
    exact rebalanceLamports_exact (rent r.buffer.length) mL pL
      r.metadataLamports r.payerLamports hreq hmL hrb

theorem c3_witness :
    (initializeHandler (fun n => n) [97] [98] [99] (some 1) 2 1000 =
        Except.ok resI3 ∧
      resI3.metadataLamports = resI3.buffer.length) ∧
    (update_field (fun n => n) bufA 1 (Field.Key [102]) [103] 99 50 =
        Except.ok resU3 ∧
      resU3.metadataLamports = resU3.buffer.length ∧
      resU3.metadataLamports + resU3.payerLamports = 99 + 50) :=
  ⟨⟨by decide,
    c3_funding_amended.1 (fun n => n) [97] [98] [99] (some 1) 2 1000 resI3
      (by decide)⟩,
   ⟨by decide,
    (c3_funding_amended.2 (fun n => n) bufA 1 (Field.Key [102]) [103] 99 50 resU3
      (by decide) (by decide) (by decide)).1,
    (c3_funding_amended.2 (fun n => n) bufA 1 (Field.Key [102]) [103] 99 50 resU3
      (by decide) (by decide) (by decide)).2⟩⟩

/-- C4: updating Key(k) replaces the value of the first pair whose key is k
when one exists (given the pairs before it do not match), otherwise appends
(k, v) at the end; all other pairs and their order, and all fixed fields,
are unchanged. -/
theorem c4_key_upsert (tm : TokenMetadata) (k v : Bytes) :
    (TokenMetadata.update tm (Field.Key k) v).name = tm.name ∧
    (TokenMetadata.update tm (Field.Key k) v).symbol = tm.symbol ∧
    (TokenMetadata.update tm (Field.Key k) v).uri = tm.uri ∧
    (TokenMetadata.update tm (Field.Key k) v).update_authority =
      tm.update_authority ∧
    (TokenMetadata.update tm (Field.Key k) v).mint = tm.mint ∧
    ((∀ p ∈ tm.additional_metadata, p.1 ≠ k) →
      (TokenMetadata.update tm (Field.Key k) v).additional_metadata =
        tm.additional_metadata ++ [(k, v)]) ∧
    (∀ pre w post, tm.additional_metadata = pre ++ (k, w) :: post →
      (∀ p ∈ pre, p.1 ≠ k) →
      (TokenMetadata.update tm (Field.Key k) v).additional_metadata =
        pre ++ (k, v) :: post) := by
  refine ⟨rfl, rfl, rfl, rfl, rfl, ?_, ?_⟩
  · intro h
    exact updateKeyList_append k v tm.additional_metadata h
  · intro pre w post hsplit h
    show updateKeyList k v tm.additional_metadata = _
    rw [hsplit]
    exact updateKeyList_replace k v w pre post h

theorem c4_witness :
    (TokenMetadata.update tmA (Field.Key [102]) [103]).additional_metadata =
      tmA.additional_metadata ++ [([102], [103])] ∧
    (TokenMetadata.update tmA (Field.Key [100]) [103]).additional_metadata =
      [([100], [103])] :=
  ⟨(c4_key_upsert tmA [102] [103]).2.2.2.2.2.1 (by decide),
   (c4_key_upsert tmA [100] [103]).2.2.2.2.2.2 [] [101] [] rfl (by decide)⟩

/-- C5: for every representable record, decoding the encoded TLV container
yields exactly the record. -/
theorem c5_roundtrip (tm : TokenMetadata) (h : WellFormed tm) :
    ∃ b, encodeTokenMetadataTlv tm = some b ∧
      getFirstVariableLenValue b = some tm := by
  obtain ⟨b, he, _, hd⟩ := tlv_roundtrip tm h
  exact ⟨b, he, hd⟩

theorem c5_witness :
    WellFormed tmA ∧
    ∃ b, encodeTokenMetadataTlv tmA = some b ∧
      getFirstVariableLenValue b = some tmA :=
  ⟨by decide, c5_roundtrip tmA (by decide)⟩

/-- C6 counterexample: a value-preserving update (the new name equals the
current name) by the correct authority succeeds, yet the account funding
changes (from 100 to the rent minimum 99) because the account held more
than the rent minimum for its size; so the claim as stated fails. -/
theorem c6_counterexample :
    currentFieldValue tmA Field.Name = some [97] ∧
    update_field (fun n => n) bufA 1 Field.Name [97] 100 0 =
      Except.ok { metadata := tmA, buffer := bufA,
                  metadataLamports := 99, payerLamports := 1 } ∧
    (99 : Nat) ≠ 100 :=
  ⟨rfl, by decide, by decide⟩

/-- C6 (amended): a value-preserving update by the stored authority leaves
the record, the encoded size and the funding unchanged, provided the
account balance already equals the rent minimum of the current encoded
size (the invariant after any successful operation); otherwise the update
still succeeds but moves the balance to that minimum. -/
theorem c6_noop_amended (rent : Nat → Nat) (buf : Bytes) (key : Nat)
    (f : Field) (v : Bytes) (pL : Nat) (R : TokenMetadata) (b : Bytes)
    (hdec : getFirstVariableLenValue buf = some R)
    (hua : R.update_authority = some key)
    (hval : currentFieldValue R f = some v)
    (henc : encodeTokenMetadataTlv R = some b) :
    update_field rent buf key f v (rent b.length) pL =
      Except.ok { metadata := R, buffer := b,
                  metadataLamports := rent b.length, payerLamports := pL } := by
  have hupd : TokenMetadata.update R f v = R :=
    update_of_currentFieldValue R f v hval
  have hsz : tlv_size_of R = some b.length := encodeTlv_length R b henc
  rw [update_field_eq_of_auth rent buf f v (rent b.length) pL R key hdec hua]
  rw [hupd]
  simp only [hsz, rebalanceLamports_equal, henc]

theorem c6_witness :
    update_field (fun n => n) bufA 1 Field.Name [97] 99 0 =
      Except.ok { metadata := tmA, buffer := bufA,
                  metadataLamports := 99, payerLamports := 0 } :=
  c6_noop_amended (fun n => n) bufA 1 Field.Name [97] 0 tmA bufA
    (by decide) rfl rfl rfl

/-- C7: a successful create writes a single-entry container that decodes to
exactly the record built from the inputs, with empty additional fields,
the mint of the given mint account, the normalized authority, and an
allocation whose size is exactly the encoded TLV size of that record. -/
theorem c7_create (rent : Nat → Nat) (n s u : Bytes) (auth : Option Nat)
    (mintK pL : Nat) (tm : TokenMetadata)
    (htm : tm = { update_authority := auth, mint := mintK, name := n,
                  symbol := s, uri := u, additional_metadata := [] })
    (hwf : WellFormed tm)
    (hpay : rent (tlvEntryOverhead + borshLen tm) ≤ pL) :
    ∃ r, initializeHandler rent n s u auth mintK pL = Except.ok r ∧
      r.metadata = tm ∧ getFirstVariableLenValue r.buffer = some tm ∧
      tlv_size_of tm = some r.buffer.length := by
  obtain ⟨b, henc, hlen, hdecb⟩ := tlv_roundtrip tm hwf
  have hsz : tlv_size_of tm = some b.length := encodeTlv_length tm b henc
  have htf : optionalNonZeroPubkeyTryFrom auth = Except.ok auth := by
    cases auth with
    | none => rfl
    | some k =>
        have h7 := hwf.2.2.2.2.2.2.1
        rw [htm] at h7
        simp only [authorityWF] at h7
        have hred : optionalNonZeroPubkeyTryFrom (some k) =
            if k = 0 then Except.error ProgramError.InvalidArgument
            else Except.ok (some k) := rfl
        rw [hred, if_neg (by omega)]
  have hpay2 : ¬ pL < rent b.length := by
    rw [hlen]
    exact Nat.not_lt.mpr hpay
  refine ⟨{ metadata := tm, buffer := b, metadataLamports := rent b.length,
            payerLamports := pL - rent b.length }, ?_, rfl, hdecb, hsz⟩
  subst htm
  unfold initializeHandler
  simp only [htf, hsz, if_neg hpay2, henc]

theorem c7_witness :
    ∃ r, initializeHandler (fun _ => 0) [97] [98] [99] (some 1) 2 0 =
        Except.ok r ∧
      r.metadata = tmC7 ∧ getFirstVariableLenValue r.buffer = some tmC7 ∧
      tlv_size_of tmC7 = some r.buffer.length :=
  c7_create (fun _ => 0) [97] [98] [99] (some 1) 2 0 tmC7 rfl (by decide)
    (by decide)

theorem initializeHandler_not_invalid (rent : Nat → Nat) (n s u : Bytes)
    (auth : Option Nat) (mintK pL : Nat) (ua : Option Nat)
    (htf : optionalNonZeroPubkeyTryFrom auth = Except.ok ua) :
    initializeHandler rent n s u auth mintK pL ≠
      Except.error ProgramError.InvalidArgument := by
  intro he
  unfold initializeHandler at he
  simp only [htf] at he
  cases hsz : tlv_size_of ({ update_authority := ua, mint := mintK, name := n, symbol := s, uri := u, additional_metadata := [] } : TokenMetadata) with
  | none => simp only [hsz] at he; cases he
  | some size =>
      simp only [hsz] at he
      by_cases hp : pL < rent size
      · rw [if_pos hp] at he; cases he
      · rw [if_neg hp] at he
        cases henc : encodeTokenMetadataTlv ({ update_authority := ua, mint := mintK, name := n, symbol := s, uri := u, additional_metadata := [] } : TokenMetadata) with
        | none => simp only [henc] at he; cases he
        | some b => simp only [henc] at he; cases he

/-- C9: create fails with InvalidArgument exactly when the supplied
authority account key is the all-zero sentinel; an omitted authority
account normalizes to the unset sentinel and any success then stores the
unset authority. -/
theorem c9_zero_authority_invalid (rent : Nat → Nat) (n s u : Bytes)
    (auth : Option Nat) (mintK pL : Nat) :
    (initializeHandler rent n s u auth mintK pL =
        Except.error ProgramError.InvalidArgument ↔ auth = some 0) ∧
    (auth = none →
      ∀ r, initializeHandler rent n s u auth mintK pL = Except.ok r →
        r.metadata.update_authority = none) := by
  constructor
  · constructor
    · intro he
      cases auth with
      | none =>
          exact absurd he
            (initializeHandler_not_invalid rent n s u none mintK pL none rfl)
      | some k =>
          by_cases hk : k = 0
          · rw [hk]
          · exact absurd he
              (initializeHandler_not_invalid rent n s u (some k) mintK pL
                (some k)
                (by
                  have hred : optionalNonZeroPubkeyTryFrom (some k) =
                      if k = 0 then Except.error ProgramError.InvalidArgument
                      else Except.ok (some k) := rfl
                  rw [hred, if_neg hk]))
    · intro ha
      subst ha
      rfl
  · intro ha r hok
    have h := (initializeHandler_ok_inv rent n s u auth mintK pL r hok).1
    rw [ha] at h
    injection h with h2
    exact h2.symm

theorem c9_witness :
    initializeHandler (fun _ => 0) [] [] [] (some 0) 0 0 =
      Except.error ProgramError.InvalidArgument :=
  (c9_zero_authority_invalid (fun _ => 0) [] [] [] (some 0) 0 0).1.mpr rfl

/-- C8: the record update never changes mint or update_authority for any
field selector; Name, Symbol and Uri updates change only that one field;
and any successful update_field preserves the stored mint and authority. -/
theorem c8_frame :
    (∀ (tm : TokenMetadata) (f : Field) (v : Bytes),
      (TokenMetadata.update tm f v).mint = tm.mint ∧
      (TokenMetadata.update tm f v).update_authority = tm.update_authority) ∧
    (∀ (tm : TokenMetadata) (v : Bytes),
      TokenMetadata.update tm Field.Name v = { tm with name := v } ∧
      TokenMetadata.update tm Field.Symbol v = { tm with symbol := v } ∧
      TokenMetadata.update tm Field.Uri v = { tm with uri := v }) ∧
    (∀ (rent : Nat → Nat) (buf : Bytes) (caller : Nat) (f : Field) (v : Bytes)
        (mL pL : Nat) (r : UpdateResult) (R : TokenMetadata),
      getFirstVariableLenValue buf = some R →
      update_field rent buf caller f v mL pL = Except.ok r →
      r.metadata.mint = R.mint ∧
      r.metadata.update_authority = R.update_authority) := by
  refine ⟨?_, ?_, ?_⟩
  · intro tm f v
    cases f <;> exact ⟨rfl, rfl⟩
  · intro tm v
    exact ⟨rfl, rfl, rfl⟩
  · intro rent buf caller f v mL pL r R hdec hok
    obtain ⟨R2, hdec2, _, hmeta, _, _⟩ :=
      update_field_ok_inv rent buf caller f v mL pL r hok
    rw [hdec] at hdec2
    cases hdec2
    rw [hmeta]
    cases f <;> exact ⟨rfl, rfl⟩

theorem c8_witness :
    resU3.metadata.mint = tmA.mint ∧
    resU3.metadata.update_authority = tmA.update_authority :=
  c8_frame.2.2 (fun n => n) bufA 1 (Field.Key [102]) [103] 99 50 resU3 tmA
    (by decide) (by decide)

/-- C10: every decoded interface instruction other than Initialize and
UpdateField is rejected by the fallback dispatcher with
InvalidInstructionData, with no handler invoked and no state produced. -/
theorem c10_fallback_rejects (rent : Nat → Nat)
    (instr : TokenMetadataInstruction) (acc : FallbackAccounts)
    (h : isDispatchable instr = false) :
    fallback rent instr acc =
      Except.error ProgramError.InvalidInstructionData := by
  cases instr <;> first | rfl | cases h

theorem c10_witness :
    fallback (fun _ => 0) (TokenMetadataInstruction.RemoveKey true [107]) accW =
      Except.error ProgramError.InvalidInstructionData :=
  c10_fallback_rejects (fun _ => 0)
    (TokenMetadataInstruction.RemoveKey true [107]) accW rfl

end TokenMeta
